import Mathlib

/-!
Verification of the privacy-filter streaming pipeline (backend/filter).

The definitions below are a shallow embedding of the Python sources:

* misc/queues.py        -> QState, putNowait, boundedPut, boundedPutAll
* shared/consent_file_utils.py -> sanitize_name, create_consent_filename,
                                  parse_consent_filename
* misc/face_recognizer.py -> FaceEntry, add_consented_face, match_face
* misc/consent_manager.py -> handle_file_change
* misc/state.py + threads/base.py -> MgrCall, runCalls, applyCall
* threads/video.py       -> processFrameCapture (consent-capture branch)
* threads/vad.py         -> VState, processVadChunk

Stateful Python objects become explicit state records; thread-shared
mutable state becomes explicit state passing (each claim concerns the
behaviour of one thread's code acting on that state, so the sequential
semantics is the intended one).  External effects (file system, inference
models, exceptions raised by library calls) are supplied as explicit
oracle values so that every control path of the source is represented.
-/

set_option autoImplicit false

variable {α : Type}

/-- Overflow strategy of a BoundedQueue (misc/types.py, QueueStrategy). -/
inductive QueueStrategy where
  | block
  | drop_oldest
  | drop_newest
deriving DecidableEq, Repr

/-- State of a BoundedQueue (misc/queues.py): the FIFO buffer of the
underlying queue.Queue plus the dropped-item counter. -/
structure QState (α : Type) where
  buf : List α
  dropped : Nat
deriving DecidableEq, Repr

/-- queue.Queue.put_nowait: raises Full (here: returns the state unchanged
and false) exactly when 0 < maxsize and maxsize <= qsize; otherwise the
item is appended at the tail. -/
def putNowait (maxsize : Nat) (s : QState α) (x : α) : QState α × Bool :=
  if 0 < maxsize ∧ maxsize ≤ s.buf.length then (s, false)
  else (⟨s.buf ++ [x], s.dropped⟩, true)

/-- BoundedQueue.put (misc/queues.py, lines 27-67).  BLOCK waits up to the
timeout for space, so with no concurrent consumer it succeeds exactly when
put_nowait would; DROP_NEWEST discards the incoming item on Full and
increments the dropped counter; DROP_OLDEST on Full pops the head,
increments the dropped counter and retries the insert (a second Full or an
Empty on the pop is swallowed, returning false). -/
def boundedPut (maxsize : Nat) (strategy : QueueStrategy) (s : QState α) (x : α) :
    QState α × Bool :=
  match strategy with
  | .block => putNowait maxsize s x
  | .drop_newest =>
    let r := putNowait maxsize s x
    if r.2 then (r.1, true) else (⟨s.buf, s.dropped + 1⟩, false)
  | .drop_oldest =>
    let r := putNowait maxsize s x
    if r.2 then (r.1, true)
    else
      match s.buf with
      | [] => (s, false)
      | _ :: rest =>
        let s2 : QState α := ⟨rest, s.dropped + 1⟩
        let r2 := putNowait maxsize s2 x
        if r2.2 then (r2.1, true) else (s2, false)

/-- A sequence of put operations from a single producer. -/
def boundedPutAll (maxsize : Nat) (strategy : QueueStrategy) (s : QState α)
    (items : List α) : QState α :=
  items.foldl (fun t x => (boundedPut maxsize strategy t x).1) s

lemma putNowait_of_space (maxsize : Nat) (s : QState α) (x : α)
    (h : ¬ (0 < maxsize ∧ maxsize ≤ s.buf.length)) :
    putNowait maxsize s x = (⟨s.buf ++ [x], s.dropped⟩, true) := by
  simp [putNowait, h]

lemma putNowait_of_full (maxsize : Nat) (s : QState α) (x : α)
    (h : 0 < maxsize ∧ maxsize ≤ s.buf.length) :
    putNowait maxsize s x = (s, false) := by
  simp [putNowait, h]

lemma boundedPut_oldest_space (maxsize : Nat) (s : QState α) (x : α)
    (h : ¬ (0 < maxsize ∧ maxsize ≤ s.buf.length)) :
    boundedPut maxsize .drop_oldest s x = (⟨s.buf ++ [x], s.dropped⟩, true) := by
  simp [boundedPut, putNowait_of_space maxsize s x h]

lemma boundedPut_oldest_full (maxsize : Nat) (a : α) (t : List α) (d : Nat) (x : α)
    (hm : 0 < maxsize) (hlen : maxsize ≤ (a :: t).length) (hlt : t.length < maxsize) :
    boundedPut maxsize .drop_oldest ⟨a :: t, d⟩ x = (⟨t ++ [x], d + 1⟩, true) := by
  have h1 : putNowait maxsize (⟨a :: t, d⟩ : QState α) x = (⟨a :: t, d⟩, false) :=
    putNowait_of_full _ _ _ ⟨hm, hlen⟩
  have h2 : putNowait maxsize (⟨t, d + 1⟩ : QState α) x = (⟨t ++ [x], d + 1⟩, true) :=
    putNowait_of_space _ _ _ (by simp; omega)
  simp [boundedPut, h1, h2]

/-- Invariant-carrying computation of a DROP_OLDEST put sequence: starting
from a buffer holding at most maxsize items, the final buffer is the last
maxsize items of the concatenated stream and the dropped counter has grown
by the number of excess items. -/
lemma boundedPutAll_oldest (maxsize : Nat) (hm : 0 < maxsize) :
    ∀ (items : List α) (s : QState α), s.buf.length ≤ maxsize →
      boundedPutAll maxsize .drop_oldest s items =
        ⟨(s.buf ++ items).drop (s.buf.length + items.length - maxsize),
         s.dropped + (s.buf.length + items.length - maxsize)⟩ := by
  intro items
  induction items with
  | nil =>
    intro s hs
    cases s with
    | mk b d =>
      simp only [boundedPutAll, List.foldl_nil, List.append_nil, List.length_nil,
        Nat.add_zero, QState.mk.injEq]
      simp only at hs
      have h0 : b.length - maxsize = 0 := by omega
      rw [h0]
      simp
  | cons x xs ih =>
    intro s hs
    by_cases hfull : s.buf.length < maxsize
    · have hstep : boundedPut maxsize .drop_oldest s x = (⟨s.buf ++ [x], s.dropped⟩, true) :=
        boundedPut_oldest_space _ _ _ (by omega)
      have hrec := ih ⟨s.buf ++ [x], s.dropped⟩ (by simp; omega)
      have : boundedPutAll maxsize .drop_oldest s (x :: xs) =
          boundedPutAll maxsize .drop_oldest ⟨s.buf ++ [x], s.dropped⟩ xs := by
        simp [boundedPutAll, hstep]
      rw [this, hrec]
      simp only [List.length_append, List.length_cons, List.length_nil,
        Nat.zero_add, List.append_assoc, List.singleton_append, QState.mk.injEq]
      refine ⟨?_, by omega⟩
      congr 1
      omega
    · have heq : s.buf.length = maxsize := by omega
      cases hb : s.buf with
      | nil => rw [hb] at heq; simp at heq; omega
      | cons a t =>
        have hstep : boundedPut maxsize .drop_oldest s x = (⟨t ++ [x], s.dropped + 1⟩, true) := by
          have : s = ⟨a :: t, s.dropped⟩ := by cases s; simp_all
          rw [this]
          exact boundedPut_oldest_full maxsize a t s.dropped x hm
            (by rw [← hb]; omega) (by rw [hb] at heq; simp at heq; omega)
        have hrec := ih ⟨t ++ [x], s.dropped + 1⟩
          (by simp; rw [hb] at heq; simp at heq; omega)
        have hlen : t.length + 1 = maxsize := by rw [hb] at heq; simpa using heq
        have : boundedPutAll maxsize .drop_oldest s (x :: xs) =
            boundedPutAll maxsize .drop_oldest ⟨t ++ [x], s.dropped + 1⟩ xs := by
          simp [boundedPutAll, hstep]
        rw [this, hrec]
        simp only [List.length_append, List.length_cons, List.length_nil,
          Nat.zero_add, List.append_assoc, List.singleton_append, List.cons_append,
          hb, QState.mk.injEq]
        refine ⟨?_, by omega⟩
        have h2 : t.length + 1 + (xs.length + 1) - maxsize =
            (t.length + 1 + xs.length - maxsize) + 1 := by omega
        rw [h2, List.drop_succ_cons]
        simp

/-- C1: under DROP_OLDEST with capacity C >= 1, after putting N > C items
into an initially empty queue, the queue holds exactly the last C items of
the stream in their original relative order and the dropped counter equals
N - C. -/
theorem c1_drop_oldest_keeps_last_C (C : Nat) (items : List α)
    (hC : 1 ≤ C) (hN : C < items.length) :
    boundedPutAll C .drop_oldest ⟨[], 0⟩ items =
      ⟨items.drop (items.length - C), items.length - C⟩ ∧
    (boundedPutAll C .drop_oldest ⟨[], 0⟩ items).buf.length = C := by
  have h := boundedPutAll_oldest C hC items ⟨[], 0⟩ (by simp)
  simp only [List.nil_append, List.length_nil, Nat.zero_add, Nat.zero_add] at h
  refine ⟨h, ?_⟩
  rw [h]
  simp
  omega

/-- Witness for C1: the spec's concrete scenario — capacity-2 DROP_OLDEST
queue, put(A), put(B), put(C) leaves [B, C] with dropped count 1. -/
theorem c1_drop_oldest_witness :
    boundedPutAll 2 .drop_oldest ⟨[], 0⟩ ["A", "B", "C"] = ⟨["B", "C"], 1⟩ := by
  have h := (c1_drop_oldest_keeps_last_C 2 ["A", "B", "C"] (by decide) (by decide)).1
  simpa using h

lemma boundedPut_newest_full (maxsize : Nat) (s : QState α) (x : α)
    (hm : 0 < maxsize) (hlen : maxsize ≤ s.buf.length) :
    boundedPut maxsize .drop_newest s x = (⟨s.buf, s.dropped + 1⟩, false) := by
  simp [boundedPut, putNowait_of_full maxsize s x ⟨hm, hlen⟩]

lemma boundedPutAll_newest_full (maxsize : Nat) (hm : 0 < maxsize) :
    ∀ (xs : List α) (s : QState α), maxsize ≤ s.buf.length →
      boundedPutAll maxsize .drop_newest s xs = ⟨s.buf, s.dropped + xs.length⟩ := by
  intro xs
  induction xs with
  | nil => intro s hs; cases s; simp [boundedPutAll]
  | cons x xs ih =>
    intro s hs
    have hstep := boundedPut_newest_full maxsize s x hm hs
    have : boundedPutAll maxsize .drop_newest s (x :: xs) =
        boundedPutAll maxsize .drop_newest ⟨s.buf, s.dropped + 1⟩ xs := by
      simp [boundedPutAll, hstep]
    rw [this, ih ⟨s.buf, s.dropped + 1⟩ (by simpa using hs)]
    simp
    omega

/-- C6: under DROP_NEWEST with capacity C >= 1, once the queue is full a
put leaves the contents unchanged, returns false and increments the dropped
counter by one; a whole sequence of k further puts leaves the buffer
unchanged and adds exactly k to the dropped counter. -/
theorem c6_drop_newest_rejects (C : Nat) (s : QState α) (x : α) (xs : List α)
    (hC : 1 ≤ C) (hfull : C ≤ s.buf.length) :
    boundedPut C .drop_newest s x = (⟨s.buf, s.dropped + 1⟩, false) ∧
    boundedPutAll C .drop_newest s xs = ⟨s.buf, s.dropped + xs.length⟩ := by
  exact ⟨boundedPut_newest_full C s x hC hfull,
    boundedPutAll_newest_full C hC xs s hfull⟩

/-- Witness for C6 at a concrete full queue: capacity 1 holding [5],
dropping 7 then [8, 9]. -/
theorem c6_drop_newest_witness :
    boundedPut 1 .drop_newest (⟨[5], 0⟩ : QState Nat) 7 = (⟨[5], 1⟩, false) ∧
    boundedPutAll 1 .drop_newest (⟨[5], 0⟩ : QState Nat) [8, 9] = ⟨[5], 2⟩ := by
  have h := c6_drop_newest_rejects 1 (⟨[5], 0⟩ : QState Nat) 7 [8, 9]
    (by decide) (by decide)
  simpa using h

/-!  shared/consent_file_utils.py.

Names are modelled as lists of characters; the per-character Python
operations str.lower and str.isalnum are embedded by Char.toLower and
Char.isAlphanum (the basic-latin range; both the sanitizer and the parser
apply the same lowering, so the round trip below is representative).
-/

/-- Python str.split(sep): split on every occurrence of the separator,
keeping empty parts (so splitting the empty string yields one empty part
and adjacent separators yield empty parts between them). -/
def pySplit (sep : Char) : List Char → List (List Char)
  | [] => [[]]
  | c :: rest =>
    let r := pySplit sep rest
    if c = sep then [] :: r
    else
      match r with
      | [] => [[c]]
      | h :: t => (c :: h) :: t

/-- Python sep.join(parts). -/
def pyJoin (sep : Char) : List (List Char) → List Char
  | [] => []
  | [p] => p
  | p :: ps => p ++ sep :: pyJoin sep ps

def unknownName : List Char := ['u', 'n', 'k', 'n', 'o', 'w', 'n']

/-- The character-filter / split / re-join body of sanitize_name: map each
character of the lowercased name to itself when alphanumeric or an
underscore and to an underscore otherwise, then drop empty underscore-
separated parts and re-join with single underscores. -/
def sanitizeCore (s : List Char) : List Char :=
  pyJoin '_'
    ((pySplit '_'
        ((s.map Char.toLower).map
          (fun c => if c.isAlphanum ∨ c = '_' then c else '_'))).filter
      (fun p => !p.isEmpty))

/-- sanitize_name (shared/consent_file_utils.py, lines 32-49): None or the
empty name become "unknown", otherwise the sanitized name, falling back to
"unknown" when sanitization leaves nothing. -/
def sanitize_name (name : Option (List Char)) : List Char :=
  match name with
  | none => unknownName
  | some s =>
    if s.isEmpty then unknownName
    else if (sanitizeCore s).isEmpty then unknownName else sanitizeCore s

/-- A Python datetime value as consumed by strftime("%Y%m%d%H%M%S");
datetime years always lie within 1..9999. -/
structure PyDateTime where
  year : Nat
  month : Nat
  day : Nat
  hour : Nat
  minute : Nat
  second : Nat
deriving DecidableEq, Repr

/-- Range constraints every Python datetime satisfies. -/
def PyDateTime.valid (t : PyDateTime) : Prop :=
  1 ≤ t.year ∧ t.year ≤ 9999 ∧ 1 ≤ t.month ∧ t.month ≤ 12 ∧
  1 ≤ t.day ∧ t.day ≤ 31 ∧ t.hour ≤ 23 ∧ t.minute ≤ 59 ∧ t.second ≤ 59

instance (t : PyDateTime) : Decidable t.valid := by
  unfold PyDateTime.valid
  infer_instance

/-- Zero-padded two-digit decimal rendering (strftime %m %d %H %M %S). -/
def pad2 (n : Nat) : List Char := [Nat.digitChar (n / 10 % 10), Nat.digitChar (n % 10)]

/-- Zero-padded four-digit decimal rendering (strftime %Y on a datetime
year, which is at most 9999). -/
def pad4 (n : Nat) : List Char :=
  [Nat.digitChar (n / 1000 % 10), Nat.digitChar (n / 100 % 10),
   Nat.digitChar (n / 10 % 10), Nat.digitChar (n % 10)]

/-- timestamp.strftime("%Y%m%d%H%M%S"). -/
def strftimeTs (t : PyDateTime) : List Char :=
  pad4 t.year ++ pad2 t.month ++ pad2 t.day ++ pad2 t.hour ++
    pad2 t.minute ++ pad2 t.second

def FILE_EXTENSION : List Char := ['.', 'j', 'p', 'g']

def TIMESTAMP_LENGTH : Nat := 14

def MIN_FILENAME_LENGTH : Nat := 19

/-- create_consent_filename (lines 52-70). -/
def create_consent_filename (name : Option (List Char)) (t : PyDateTime) :
    List Char :=
  strftimeTs t ++ ['_'] ++ sanitize_name name ++ FILE_EXTENSION

/-- Python filename.endswith(ext). -/
def pyEndsWith (l suffix : List Char) : Bool :=
  decide (l.drop (l.length - suffix.length) = suffix)

/-- The name slice of parse_consent_filename: skip the timestamp and the
underscore, cut off the extension, and lowercase what remains
(name_with_ext = filename[TIMESTAMP_LENGTH + 1 :], then
name_with_ext[: -len(FILE_EXTENSION)].lower()). -/
def parsedName (filename : List Char) : List Char :=
  ((filename.drop (TIMESTAMP_LENGTH + 1)).take
      ((filename.drop (TIMESTAMP_LENGTH + 1)).length - FILE_EXTENSION.length)).map
    Char.toLower

/-- parse_consent_filename (lines 73-111): length check, extension check,
separator check, then slice out the 14-character timestamp and the
lowercased name, requiring an all-digit timestamp and a non-empty name. -/
def parse_consent_filename (filename : List Char) :
    Option (List Char × List Char) :=
  if filename.length < MIN_FILENAME_LENGTH then none
  else if ¬ pyEndsWith filename FILE_EXTENSION then none
  else if filename[TIMESTAMP_LENGTH]? ≠ some '_' then none
  else if ¬ (filename.take TIMESTAMP_LENGTH).all Char.isDigit then none
  else if (parsedName filename).isEmpty then none
  else some (filename.take TIMESTAMP_LENGTH, parsedName filename)

lemma char_toNat_ofNat_lt (n : Nat) (h : n < 55296) : (Char.ofNat n).toNat = n := by
  rw [Char.ofNat, dif_pos (Or.inl (by exact_mod_cast h))]
  rfl

lemma char_toLower_idem (c : Char) : c.toLower.toLower = c.toLower := by
  unfold Char.toLower
  by_cases h : c.toNat ≥ 65 ∧ c.toNat ≤ 90
  · rw [if_pos h]
    have hv : (Char.ofNat (c.toNat + 32)).toNat = c.toNat + 32 :=
      char_toNat_ofNat_lt _ (by omega)
    rw [if_neg (by omega)]
  · rw [if_neg h, if_neg h]

lemma mem_pySplit_subset (sep : Char) (l : List Char) :
    ∀ p ∈ pySplit sep l, ∀ c ∈ p, c ∈ l := by
  induction l with
  | nil => intro p hp c hc; simp [pySplit] at hp; simp [hp] at hc
  | cons a rest ih =>
    intro p hp c hc
    by_cases ha : a = sep
    · simp only [pySplit, if_pos ha, List.mem_cons] at hp
      rcases hp with hp | hp
      · simp [hp] at hc
      · exact List.mem_cons_of_mem a (ih p hp c hc)
    · rcases hr : pySplit sep rest with _ | ⟨h, t⟩
      · simp only [pySplit, if_neg ha, hr, List.mem_singleton] at hp
        subst hp
        simp only [List.mem_singleton] at hc
        subst hc
        exact List.mem_cons_self _ _
      · simp only [pySplit, if_neg ha, hr, List.mem_cons] at hp
        rcases hp with hp | hp
        · subst hp
          rcases List.mem_cons.mp hc with rfl | hc2
          · exact List.mem_cons_self _ _
          · exact List.mem_cons_of_mem a
              (ih h (by rw [hr]; exact List.mem_cons_self h t) c hc2)
        · exact List.mem_cons_of_mem a
            (ih p (by rw [hr]; exact List.mem_cons_of_mem h hp) c hc)

lemma mem_pyJoin_subset (sep : Char) (ps : List (List Char)) :
    ∀ c ∈ pyJoin sep ps, c = sep ∨ ∃ p ∈ ps, c ∈ p := by
  induction ps with
  | nil => intro c hc; simp [pyJoin] at hc
  | cons p ps ih =>
    intro c hc
    cases ps with
    | nil => right; exact ⟨p, List.mem_cons_self p [], by simpa [pyJoin] using hc⟩
    | cons q qs =>
      simp only [pyJoin, List.mem_append, List.mem_cons] at hc
      rcases hc with hc | hc | hc
      · right; exact ⟨p, List.mem_cons_self _ _, hc⟩
      · left; exact hc
      · rcases ih c hc with h | ⟨r, hr, hcr⟩
        · left; exact h
        · right; exact ⟨r, List.mem_cons_of_mem p hr, hcr⟩

lemma sanitizeCore_lower_fixed (s : List Char) :
    ∀ c ∈ sanitizeCore s, c.toLower = c := by
  intro c hc
  rcases mem_pyJoin_subset '_' _ c hc with h | ⟨p, hp, hcp⟩
  · subst h; decide
  · have hp2 := List.mem_filter.mp hp
    have hcs := mem_pySplit_subset '_' _ p hp2.1 c hcp
    simp only [List.mem_map] at hcs
    rcases hcs with ⟨b, hb, hbc⟩
    rcases hb with ⟨a, _, rfl⟩
    by_cases hcase : a.toLower.isAlphanum ∨ a.toLower = '_'
    · rw [if_pos hcase] at hbc
      subst hbc
      exact char_toLower_idem a
    · rw [if_neg hcase] at hbc
      subst hbc
      decide

lemma sanitize_name_ne_nil (name : Option (List Char)) : sanitize_name name ≠ [] := by
  rcases name with _ | s
  · simp [sanitize_name, unknownName]
  · simp only [sanitize_name]
    split_ifs with h1 h2
    · simp [unknownName]
    · simp [unknownName]
    · simpa using h2

lemma sanitize_name_lower_fixed (name : Option (List Char)) :
    (sanitize_name name).map Char.toLower = sanitize_name name := by
  have hfix : ∀ c ∈ sanitize_name name, c.toLower = c := by
    rcases name with _ | s
    · intro c hc; simp only [sanitize_name, unknownName] at hc; fin_cases hc <;> decide
    · simp only [sanitize_name]
      split_ifs with h1 h2
      · intro c hc; simp only [unknownName] at hc; fin_cases hc <;> decide
      · intro c hc; simp only [unknownName] at hc; fin_cases hc <;> decide
      · exact sanitizeCore_lower_fixed s
  calc (sanitize_name name).map Char.toLower
      = (sanitize_name name).map id := List.map_congr_left hfix
    _ = sanitize_name name := List.map_id _

lemma digitChar_mod_isDigit (n : Nat) : (Nat.digitChar (n % 10)).isDigit = true := by
  have h : n % 10 < 10 := Nat.mod_lt _ (by norm_num)
  set k := n % 10 with hk
  interval_cases k <;> decide

lemma strftimeTs_length (t : PyDateTime) : (strftimeTs t).length = 14 := by
  simp [strftimeTs, pad4, pad2]

lemma strftimeTs_all_digits (t : PyDateTime) :
    (strftimeTs t).all Char.isDigit = true := by
  simp [strftimeTs, pad4, pad2, digitChar_mod_isDigit]

/-- C10: the consent-filename round trip.  For every name (None included)
and every datetime timestamp, parsing the created filename succeeds and
recovers exactly the 14-digit timestamp string and the sanitized lowercase
name. -/
theorem c10_consent_filename_round_trip (name : Option (List Char))
    (t : PyDateTime) (ht : t.valid) :
    parse_consent_filename (create_consent_filename name t) =
      some (strftimeTs t, sanitize_name name) := by
  have hts_len : (strftimeTs t).length = 14 := strftimeTs_length t
  have hsn_ne : sanitize_name name ≠ [] := sanitize_name_ne_nil name
  have hsn_pos : 0 < (sanitize_name name).length := List.length_pos.mpr hsn_ne
  have hfile : create_consent_filename name t =
      (strftimeTs t ++ ['_']) ++ (sanitize_name name ++ FILE_EXTENSION) := by
    simp [create_consent_filename, List.append_assoc]
  have hfile2 : create_consent_filename name t =
      ((strftimeTs t ++ ['_']) ++ sanitize_name name) ++ FILE_EXTENSION := by
    simp [create_consent_filename, List.append_assoc]
  have hlen : (create_consent_filename name t).length =
      19 + (sanitize_name name).length := by
    simp [create_consent_filename, FILE_EXTENSION, hts_len]
    omega
  have hdrop15 : (create_consent_filename name t).drop (TIMESTAMP_LENGTH + 1) =
      sanitize_name name ++ FILE_EXTENSION := by
    rw [hfile]
    exact List.drop_left' (by simp [hts_len, TIMESTAMP_LENGTH])
  have htake14 : (create_consent_filename name t).take TIMESTAMP_LENGTH =
      strftimeTs t := by
    rw [hfile, List.append_assoc]
    exact List.take_left' (by simp [hts_len, TIMESTAMP_LENGTH])
  have hget : (create_consent_filename name t)[TIMESTAMP_LENGTH]? = some '_' := by
    rw [hfile, List.append_assoc,
      List.getElem?_append_right (by simp [hts_len, TIMESTAMP_LENGTH])]
    simp [hts_len, TIMESTAMP_LENGTH]
  have hends : pyEndsWith (create_consent_filename name t) FILE_EXTENSION = true := by
    unfold pyEndsWith
    rw [decide_eq_true_eq, hlen, hfile2]
    exact List.drop_left' (by simp [hts_len, FILE_EXTENSION]; omega)
  have hname : parsedName (create_consent_filename name t) = sanitize_name name := by
    unfold parsedName
    rw [hdrop15]
    have hcut : (sanitize_name name ++ FILE_EXTENSION).length -
        FILE_EXTENSION.length = (sanitize_name name).length := by
      simp
    rw [hcut, List.take_left]
    exact sanitize_name_lower_fixed name
  unfold parse_consent_filename
  rw [if_neg (by rw [hlen]; simp [MIN_FILENAME_LENGTH]),
    if_neg (by simp [hends]),
    if_neg (by simp [hget]),
    if_neg (by rw [htake14]; simp [strftimeTs_all_digits]),
    if_neg (by rw [hname]; simp [hsn_ne]),
    htake14, hname]

/-- Witness for C10 at a concrete name (with a space and punctuation) and
a concrete timestamp. -/
theorem c10_round_trip_witness :
    parse_consent_filename (create_consent_filename
      (some ("Alice Smith!".toList)) ⟨2024, 6, 5, 12, 34, 56⟩) =
      some ("20240605123456".toList, "alice_smith".toList) := by
  rw [c10_consent_filename_round_trip (some ("Alice Smith!".toList))
    ⟨2024, 6, 5, 12, 34, 56⟩ (by decide)]
  decide

/-!  misc/face_recognizer.py.

Encodings are embedded as rational vectors.  face_recognition's
face_distance is the Euclidean norm of the difference; every use the
source makes of a distance (comparison with the 0.5 threshold, argmin) is
monotone in the norm, so the embedding works throughout with squared
distances and the squared threshold 0.25, which keeps all values rational
and every definition computable.
-/

/-- One consented-faces database entry: (file_path, name, encoding)
(FaceRecognizer.consented_faces). -/
structure FaceEntry where
  file : String
  name : String
  encoding : List ℚ
deriving DecidableEq, Repr

/-- Squared Euclidean distance between two encodings. -/
def faceDistSq (a b : List ℚ) : ℚ :=
  (List.zipWith (fun x y => (x - y) ^ 2) a b).sum

/-- The square of FACE_DISTANCE_THRESHOLD = 0.5. -/
def FACE_DISTANCE_THRESHOLD_SQ : ℚ := 1 / 4

/-- The (squared) distance of a database entry to the query encoding. -/
def entryDist (encoding : List ℚ) (e : FaceEntry) : ℚ :=
  faceDistSq e.encoding encoding

/-- The distances of a query encoding to every database entry, in database
order (face_recognition.face_distance(known_encodings, encoding)). -/
def faceDistances (db : List FaceEntry) (encoding : List ℚ) : List ℚ :=
  db.map (entryDist encoding)

/-- The minimum of a nonempty list (np.min; 0 for the empty list, which
the source never queries). -/
def minList : List ℚ → ℚ
  | [] => 0
  | [x] => x
  | x :: y :: rest => min x (minList (y :: rest))

/-- np.argmin: the index of the first occurrence of the minimum. -/
def argminIdx : List ℚ → Nat
  | [] => 0
  | [_] => 0
  | x :: y :: rest =>
    if x ≤ minList (y :: rest) then 0 else argminIdx (y :: rest) + 1

/-- FaceRecognizer.match_face (lines 136-165): an empty database yields
(False, None); otherwise the entry at np.argmin of the distances is
returned when its distance is within the threshold. -/
def match_face (db : List FaceEntry) (encoding : List ℚ) : Bool × Option String :=
  if db.isEmpty then (false, none)
  else
    match (faceDistances db encoding)[argminIdx (faceDistances db encoding)]? with
    | some best =>
      if best ≤ FACE_DISTANCE_THRESHOLD_SQ then
        (true, (db[argminIdx (faceDistances db encoding)]?).map (fun e => e.name))
      else (false, none)
    | none => (false, none)

lemma minList_cons (x : ℚ) (rest : List ℚ) (h : rest ≠ []) :
    minList (x :: rest) = min x (minList rest) := by
  cases rest with
  | nil => exact absurd rfl h
  | cons y t => rfl

lemma argminIdx_cons (x : ℚ) (rest : List ℚ) (h : rest ≠ []) :
    argminIdx (x :: rest) =
      if x ≤ minList rest then 0 else argminIdx rest + 1 := by
  cases rest with
  | nil => exact absurd rfl h
  | cons y t => rfl

lemma minList_le_mem : ∀ (l : List ℚ), ∀ a ∈ l, minList l ≤ a := by
  intro l
  induction l with
  | nil => intro a ha; simp at ha
  | cons x rest ih =>
    intro a ha
    rcases List.mem_cons.mp ha with rfl | hmem
    · cases rest with
      | nil => simp [minList]
      | cons y t =>
        rw [minList_cons _ _ (by simp)]
        exact min_le_left _ _
    · have hne : rest ≠ [] := List.ne_nil_of_mem hmem
      rw [minList_cons _ _ hne]
      exact le_trans (min_le_right _ _) (ih a hmem)

lemma argminIdx_lt : ∀ (l : List ℚ), l ≠ [] → argminIdx l < l.length := by
  intro l
  induction l with
  | nil => intro h; exact absurd rfl h
  | cons x rest ih =>
    intro _
    by_cases hne : rest = []
    · subst hne; simp [argminIdx]
    · rw [argminIdx_cons x rest hne]
      split_ifs
      · simp
      · have := ih hne
        simp only [List.length_cons]
        omega

lemma getElem?_argminIdx : ∀ (l : List ℚ), l ≠ [] →
    l[argminIdx l]? = some (minList l) := by
  intro l
  induction l with
  | nil => intro h; exact absurd rfl h
  | cons x rest ih =>
    intro _
    by_cases hne : rest = []
    · subst hne; simp [argminIdx, minList]
    · rw [argminIdx_cons x rest hne, minList_cons x rest hne]
      split_ifs with hx
      · simp [min_eq_left hx]
      · have hlt : minList rest < x := lt_of_not_le hx
        simp [ih hne, min_eq_right (le_of_lt hlt)]

lemma argminIdx_first : ∀ (l : List ℚ) (j : Nat), j < argminIdx l →
    ∀ v, l[j]? = some v → minList l < v := by
  intro l
  induction l with
  | nil => intro j hj v hv; simp [argminIdx] at hj
  | cons x rest ih =>
    intro j hj v hv
    by_cases hne : rest = []
    · subst hne; simp [argminIdx] at hj
    · rw [argminIdx_cons x rest hne] at hj
      split_ifs at hj with hx
      · omega
      · have hlt : minList rest < x := lt_of_not_le hx
        rw [minList_cons x rest hne, min_eq_right (le_of_lt hlt)]
        cases j with
        | zero =>
          simp only [List.getElem?_cons_zero, Option.some.injEq] at hv
          rw [← hv]
          exact hlt
        | succ n =>
          have hjr : n < argminIdx rest := by omega
          have hv2 : rest[n]? = some v := by simpa using hv
          exact ih n hjr v hv2

/-- C4: match_face returns (true, name) exactly when the database is
non-empty and the minimum distance from the query encoding to the stored
encodings is within the fixed threshold, name then being the stored name
of the first entry attaining that global minimum; in every other case the
result carries no name. -/
theorem c4_match_face_characterization (db : List FaceEntry) (encoding : List ℚ) :
    (∀ nm : String,
      match_face db encoding = (true, some nm) ↔
        ∃ i : Fin db.length,
          (∀ j : Fin db.length,
            entryDist encoding (db.get i) ≤ entryDist encoding (db.get j)) ∧
          (∀ j : Fin db.length, (j : Nat) < (i : Nat) →
            entryDist encoding (db.get i) < entryDist encoding (db.get j)) ∧
          entryDist encoding (db.get i) ≤ FACE_DISTANCE_THRESHOLD_SQ ∧
          nm = (db.get i).name) ∧
    ((match_face db encoding).1 = false → (match_face db encoding).2 = none) := by
  by_cases hdb : db = []
  · subst hdb
    constructor
    · intro nm
      constructor
      · intro h; simp [match_face] at h
      · rintro ⟨i, -⟩; exact absurd i.2 (by simp)
    · intro _; simp [match_face]
  · have hdE : db.isEmpty = false := by simp [hdb]
    have hne : db.map (entryDist encoding) ≠ [] := by simp [hdb]
    have hlen : (db.map (entryDist encoding)).length = db.length :=
      List.length_map _ _
    have hai : argminIdx (db.map (entryDist encoding)) < db.length := by
      rw [← hlen]; exact argminIdx_lt _ hne
    have hmin_at : (db.map (entryDist encoding))[argminIdx
        (db.map (entryDist encoding))]? =
        some (minList (db.map (entryDist encoding))) :=
      getElem?_argminIdx _ hne
    have hdbi : db[argminIdx (db.map (entryDist encoding))]? =
        some (db.get ⟨argminIdx (db.map (entryDist encoding)), hai⟩) := by
      rw [List.getElem?_eq_getElem hai]
      simp
    have hval : entryDist encoding
        (db.get ⟨argminIdx (db.map (entryDist encoding)), hai⟩) =
        minList (db.map (entryDist encoding)) := by
      have h := hmin_at
      rw [List.getElem?_map, hdbi] at h
      simpa using h
    have hvalj : ∀ j : Fin db.length,
        minList (db.map (entryDist encoding)) ≤ entryDist encoding (db.get j) := by
      intro j
      apply minList_le_mem
      exact List.mem_map_of_mem _ (db.get_mem j.1 j.2)
    have hstrict : ∀ j : Fin db.length,
        (j : Nat) < argminIdx (db.map (entryDist encoding)) →
        minList (db.map (entryDist encoding)) < entryDist encoding (db.get j) := by
      intro j hj
      apply argminIdx_first (db.map (entryDist encoding)) j hj
      rw [List.getElem?_map, List.getElem?_eq_getElem j.2]
      simp
    have hdists : faceDistances db encoding = db.map (entryDist encoding) := rfl
    by_cases hθ : minList (db.map (entryDist encoding)) ≤ FACE_DISTANCE_THRESHOLD_SQ
    · have hmf : match_face db encoding = (true,
          some (db.get ⟨argminIdx (db.map (entryDist encoding)), hai⟩).name) := by
        unfold match_face
        rw [hdE, hdists, hmin_at]
        simp only [Bool.false_eq_true, if_false]
        rw [if_pos hθ, hdbi]
        rfl
      constructor
      · intro nm
        rw [hmf]
        constructor
        · intro h
          simp only [Prod.mk.injEq, Option.some.injEq, true_and] at h
          refine ⟨⟨argminIdx (db.map (entryDist encoding)), hai⟩, ?_, ?_, ?_, h.symm⟩
          · intro j; rw [hval]; exact hvalj j
          · intro j hj; rw [hval]; exact hstrict j hj
          · rw [hval]; exact hθ
        · rintro ⟨i, hle, hfirst, hθi, hnm⟩
          have hival : entryDist encoding (db.get i) =
              minList (db.map (entryDist encoding)) := by
            apply le_antisymm
            · have h := hle ⟨argminIdx (db.map (entryDist encoding)), hai⟩
              rw [hval] at h
              exact h
            · exact hvalj i
          have hieq : (i : Nat) = argminIdx (db.map (entryDist encoding)) := by
            rcases lt_trichotomy ((i : Nat))
                (argminIdx (db.map (entryDist encoding))) with hlt | heq | hgt
            · exact absurd (hstrict i hlt) (by rw [hival]; exact lt_irrefl _)
            · exact heq
            · exfalso
              have h1 := hfirst ⟨argminIdx (db.map (entryDist encoding)), hai⟩ hgt
              rw [hival, hval] at h1
              exact lt_irrefl _ h1
          have hifin : i = ⟨argminIdx (db.map (entryDist encoding)), hai⟩ :=
            Fin.ext hieq
          rw [hnm, hifin]
      · rw [hmf]
        intro h
        simp at h
    · have hmf : match_face db encoding = (false, none) := by
        unfold match_face
        rw [hdE, hdists, hmin_at]
        simp only [Bool.false_eq_true, if_false]
        rw [if_neg hθ]
      constructor
      · intro nm
        rw [hmf]
        constructor
        · intro h; simp at h
        · rintro ⟨i, hle, hfirst, hθi, hnm⟩
          exact absurd (le_trans (hvalj i) hθi) hθ
      · intro _; rw [hmf]

/-- Witness for C4 on a concrete two-entry database: the second entry is
strictly closer and within the threshold, so its name is returned. -/
theorem c4_match_face_witness :
    match_face
      [⟨"f1", "bob", [1, 0]⟩, ⟨"f2", "ann", [0, 0]⟩] [0, (1 : ℚ) / 10] =
      (true, some "ann") := by
  have h := (c4_match_face_characterization
    [⟨"f1", "bob", [1, 0]⟩, ⟨"f2", "ann", [0, 0]⟩] [0, (1 : ℚ) / 10]).1 "ann"
  apply h.mpr
  refine ⟨⟨1, by norm_num⟩, ?_, ?_, ?_, ?_⟩
  · intro j
    fin_cases j <;> norm_num [entryDist, faceDistSq]
  · intro j hj
    fin_cases j
    · norm_num [entryDist, faceDistSq]
    · simp at hj
  · norm_num [entryDist, faceDistSq, FACE_DISTANCE_THRESHOLD_SQ]
  · rfl

/-!  misc/consent_manager.py together with the registry mutations of
misc/face_recognizer.py and misc/state.py that it drives.  The file
system, image loading and face detection are external: each watch event
carries the outcome the source would obtain from them. -/

/-- Python str.lower on a whole string (ASCII range, as for names). -/
def pyStrLower (s : String) : String := s.map Char.toLower

/-- watchfiles.Change. -/
inductive FileChange where
  | added
  | modified
  | deleted
deriving DecidableEq, Repr

/-- The shared state mutated while handling consent-file events: the
recognizer's consented_faces list and ConsentState.consented_names. -/
structure ConsentRegistry where
  faces : List FaceEntry
  consented_names : Finset String

/-- FaceRecognizer.remove_consented_face_by_file (lines 122-134): drop
every entry whose source file matches. -/
def remove_consented_face_by_file (faces : List FaceEntry) (file : String) :
    List FaceEntry :=
  faces.filter (fun e => decide (e.file ≠ file))

/-- FaceRecognizer.add_consented_face (lines 106-121): lowercase the name,
remove any entry for the same file first, then append the new entry. -/
def add_consented_face (faces : List FaceEntry) (name : String)
    (encoding : List ℚ) (file : String) : List FaceEntry :=
  faces.filter (fun e => decide (e.file ≠ file)) ++
    [⟨file, pyStrLower name, encoding⟩]

/-- ConsentState.add_consented_name (misc/state.py, lines 56-60):
normalize to lowercase and add to the set. -/
def add_consented_name (names : Finset String) (name : String) : Finset String :=
  insert (pyStrLower name) names

/-- ConsentManager._process_consent_file (lines 49-69).  Parsing the
filename, loading the image and extracting the encoding are external
steps; their combined outcome is the supplied option (none when the
filename is invalid, the image fails to load, or no face is found, in
which case the source returns leaving the state untouched). -/
def process_consent_file (reg : ConsentRegistry) (file : String)
    (processResult : Option (String × List ℚ)) : ConsentRegistry :=
  match processResult with
  | none => reg
  | some (name, encoding) =>
    { faces := add_consented_face reg.faces name encoding file,
      consented_names := add_consented_name reg.consented_names name }

/-- One watch event with its oracle values: the change kind, the path,
whether file_path.exists() holds when the event is handled, and what
_process_consent_file would extract from the file. -/
structure FileEvent where
  change : FileChange
  path : String
  existsNow : Bool
  processResult : Option (String × List ℚ)

/-- ConsentManager._handle_file_change (lines 156-170): added/modified
events are processed only if the file still exists (modified events remove
the old record first); deleted events remove the record for that file. -/
def handle_file_change (reg : ConsentRegistry) (ev : FileEvent) : ConsentRegistry :=
  match ev.change with
  | .added =>
    if ev.existsNow then process_consent_file reg ev.path ev.processResult
    else reg
  | .modified =>
    if ev.existsNow then
      process_consent_file
        { reg with faces := remove_consented_face_by_file reg.faces ev.path }
        ev.path ev.processResult
    else reg
  | .deleted =>
    { reg with faces := remove_consented_face_by_file reg.faces ev.path }

/-- Number of allow-list records whose source file is p. -/
def countForFile (faces : List FaceEntry) (p : String) : Nat :=
  (faces.filter (fun e => decide (e.file = p))).length

lemma countForFile_append (l1 l2 : List FaceEntry) (p : String) :
    countForFile (l1 ++ l2) p = countForFile l1 p + countForFile l2 p := by
  simp [countForFile]

lemma countForFile_remove_self (faces : List FaceEntry) (p : String) :
    countForFile (remove_consented_face_by_file faces p) p = 0 := by
  unfold countForFile remove_consented_face_by_file
  rw [List.length_eq_zero, List.filter_eq_nil_iff]
  intro e he
  have h := List.of_mem_filter he
  simp at h ⊢
  exact h

lemma countForFile_remove_other (faces : List FaceEntry) (p q : String)
    (hq : q ≠ p) :
    countForFile (remove_consented_face_by_file faces p) q =
      countForFile faces q := by
  unfold countForFile remove_consented_face_by_file
  rw [List.filter_filter]
  congr 1
  apply List.filter_congr
  intro e _
  by_cases h : e.file = q
  · subst h
    simp [hq]
  · simp [h]

lemma countForFile_add (faces : List FaceEntry) (name : String)
    (encoding : List ℚ) (p : String) :
    countForFile (add_consented_face faces name encoding p) p = 1 := by
  unfold add_consented_face
  rw [countForFile_append]
  have h1 : countForFile (faces.filter (fun e => decide (e.file ≠ p))) p = 0 :=
    countForFile_remove_self faces p
  rw [h1]
  simp [countForFile]

lemma countForFile_add_other (faces : List FaceEntry) (name : String)
    (encoding : List ℚ) (p q : String) (hq : q ≠ p) :
    countForFile (add_consented_face faces name encoding p) q =
      countForFile faces q := by
  unfold add_consented_face
  rw [countForFile_append]
  have h1 := countForFile_remove_other faces p q hq
  unfold remove_consented_face_by_file at h1
  rw [h1]
  have h2 : countForFile [(⟨p, pyStrLower name, encoding⟩ : FaceEntry)] q = 0 := by
    simp [countForFile, Ne.symm hq]
  rw [h2]
  omega

/-- C7: handling watch events keeps the allow-list consistent.  After a
deletion event for p no record for p remains; after an addition or
modification event for p whose file still exists, parses and yields a
face, exactly one record for p remains; and handling any event preserves
the at-most-one-record-per-source-file invariant. -/
theorem c7_handle_file_change_consistency (reg : ConsentRegistry) (ev : FileEvent) :
    (ev.change = .deleted →
      countForFile (handle_file_change reg ev).faces ev.path = 0) ∧
    ((ev.change = .added ∨ ev.change = .modified) → ev.existsNow = true →
      ∀ name encoding, ev.processResult = some (name, encoding) →
        countForFile (handle_file_change reg ev).faces ev.path = 1) ∧
    ((∀ q, countForFile reg.faces q ≤ 1) →
      ∀ q, countForFile (handle_file_change reg ev).faces q ≤ 1) := by
  refine ⟨?_, ?_, ?_⟩
  · intro hdel
    simp only [handle_file_change, hdel]
    exact countForFile_remove_self reg.faces ev.path
  · intro hkind hex name encoding hres
    rcases hkind with hk | hk <;>
      simp only [handle_file_change, hk, hex, if_true, process_consent_file, hres]
    · exact countForFile_add reg.faces name encoding ev.path
    · exact countForFile_add
        (remove_consented_face_by_file reg.faces ev.path) name encoding ev.path
  · intro hinv q
    rcases hc : ev.change with _ | _ | _ <;>
      simp only [handle_file_change, hc]
    · by_cases hex : ev.existsNow
      · rw [if_pos hex]
        rcases hres : ev.processResult with _ | ⟨name, encoding⟩
        · simp only [process_consent_file]
          exact hinv q
        · simp only [process_consent_file]
          by_cases hq : q = ev.path
          · subst hq
            rw [countForFile_add]
          · rw [countForFile_add_other _ _ _ _ _ hq]
            exact hinv q
      · rw [if_neg hex]
        exact hinv q
    · by_cases hex : ev.existsNow
      · rw [if_pos hex]
        rcases hres : ev.processResult with _ | ⟨name, encoding⟩
        · simp only [process_consent_file]
          by_cases hq : q = ev.path
          · subst hq
            rw [countForFile_remove_self]
            omega
          · rw [countForFile_remove_other _ _ _ hq]
            exact hinv q
        · simp only [process_consent_file]
          by_cases hq : q = ev.path
          · subst hq
            rw [countForFile_add]
          · rw [countForFile_add_other _ _ _ _ _ hq,
              countForFile_remove_other _ _ _ hq]
            exact hinv q
      · rw [if_neg hex]
        exact hinv q
    · by_cases hq : q = ev.path
      · subst hq
        rw [countForFile_remove_self]
        omega
      · rw [countForFile_remove_other _ _ _ hq]
        exact hinv q

/-- Witness for C7: a two-event scenario on a concrete registry — a
modification that re-registers f.jpg leaves exactly one record for it,
and a deletion leaves none. -/
theorem c7_handle_file_change_witness :
    countForFile (handle_file_change
      ⟨[⟨"f.jpg", "ann", [0]⟩, ⟨"g.jpg", "bob", [1]⟩], {"ann", "bob"}⟩
      ⟨.modified, "f.jpg", true, some ("Ann", [2])⟩).faces "f.jpg" = 1 ∧
    countForFile (handle_file_change
      ⟨[⟨"f.jpg", "ann", [0]⟩, ⟨"g.jpg", "bob", [1]⟩], {"ann", "bob"}⟩
      ⟨.deleted, "f.jpg", false, none⟩).faces "f.jpg" = 0 := by
  constructor
  · exact (c7_handle_file_change_consistency
      ⟨[⟨"f.jpg", "ann", [0]⟩, ⟨"g.jpg", "bob", [1]⟩], {"ann", "bob"}⟩
      ⟨.modified, "f.jpg", true, some ("Ann", [2])⟩).2.1
      (Or.inr rfl) rfl "Ann" [2] rfl
  · exact (c7_handle_file_change_consistency
      ⟨[⟨"f.jpg", "ann", [0]⟩, ⟨"g.jpg", "bob", [1]⟩], {"ann", "bob"}⟩
      ⟨.deleted, "f.jpg", false, none⟩).1 rfl

/-- C9: handling a deletion event removes only the recognizer record for
that file; ConsentState.consented_names is left unchanged, so the deleted
person's normalized name remains in the consented-names set. -/
theorem c9_delete_keeps_consented_names (reg : ConsentRegistry) (ev : FileEvent)
    (h : ev.change = .deleted) :
    (handle_file_change reg ev).consented_names = reg.consented_names ∧
    (handle_file_change reg ev).faces =
      reg.faces.filter (fun e => decide (e.file ≠ ev.path)) := by
  simp [handle_file_change, h, remove_consented_face_by_file]

/-- Witness for C9: deleting ann's only consent image empties her
allow-list record while "ann" stays in consented_names. -/
theorem c9_delete_witness :
    (handle_file_change ⟨[⟨"f.jpg", "ann", [0]⟩], {"ann"}⟩
      ⟨.deleted, "f.jpg", false, none⟩).consented_names = {"ann"} ∧
    (handle_file_change ⟨[⟨"f.jpg", "ann", [0]⟩], {"ann"}⟩
      ⟨.deleted, "f.jpg", false, none⟩).faces = [] := by
  have h := c9_delete_keeps_consented_names ⟨[⟨"f.jpg", "ann", [0]⟩], {"ann"}⟩
    ⟨.deleted, "f.jpg", false, none⟩ rfl
  exact ⟨h.1, by rw [h.2]; rfl⟩

/-!  threads/base.py (BaseThread.run) acting on the misc/state.py
ThreadStateManager.  A run is observed through the calls it makes on the
manager; setup(), process_iteration() and their exceptions are the only
external effects (the logger, heartbeat bookkeeping and sleeps never
raise). -/

/-- misc/types.py ThreadState. -/
inductive ThreadState where
  | idle
  | running
  | stopping
  | stopped
  | error
deriving DecidableEq, Repr

/-- One call BaseThread.run performs on the ThreadStateManager. -/
inductive MgrCall where
  | register
  | update (s : ThreadState)
  | heartbeat
  | unregister
deriving DecidableEq, Repr

/-- Outcome of one process_iteration call: returned did_work, or raised. -/
inductive IterOutcome where
  | ok (didWork : Bool)
  | raises
deriving DecidableEq, Repr

/-- One run of a stage: whether setup() raises, and the outcome of each
process_iteration executed before the stop request is observed (the loop
exits at the next should_stop check once the listed iterations are
consumed). -/
structure RunScript where
  setupRaises : Bool
  iters : List IterOutcome

/-- BaseThread.run (threads/base.py lines 27-54) as the sequence of
ThreadStateManager calls it performs: register and update(RUNNING) come
first; a raising setup() skips the loop and the except block records
update(ERROR); an exception from process_iteration is caught inside the
loop, which logs it and continues, so iterations contribute only
heartbeats and never a state update; the finally block always records
update(STOPPED) and then unregisters the thread. -/
def runCalls (script : RunScript) : List MgrCall :=
  [MgrCall.register, MgrCall.update .running] ++
    (if script.setupRaises then [MgrCall.update .error]
     else script.iters.map (fun _ => MgrCall.heartbeat)) ++
    [MgrCall.update .stopped, MgrCall.unregister]

/-- ThreadStateManager restricted to the one thread of the run: its
registered state, or none when not registered.  register_thread sets
IDLE; update_state changes the state only while the thread is registered
(misc/state.py lines 139-148); unregister_thread removes it. -/
def applyCall (st : Option ThreadState) (c : MgrCall) : Option ThreadState :=
  match c with
  | .register => some .idle
  | .update s =>
    match st with
    | some _ => some s
    | none => none
  | .heartbeat => st
  | .unregister => none

/-- The registered state after a sequence of manager calls, starting
unregistered. -/
def stateAfter (calls : List MgrCall) : Option ThreadState :=
  calls.foldl applyCall none

/-- C2 counterexample: for a stage whose every process_iteration raises
(and whose setup succeeds), the run never updates the state to ERROR at
all — the trace is register, RUNNING, heartbeats, STOPPED, unregister;
and ERROR is not terminal: in a run whose setup raises, the state is
ERROR after the third call and STOPPED after the fourth. -/
theorem c2_lifecycle_counterexample :
    runCalls ⟨false, [.raises, .raises, .raises]⟩ =
      [.register, .update .running, .heartbeat, .heartbeat, .heartbeat,
       .update .stopped, .unregister] ∧
    MgrCall.update .error ∉ runCalls ⟨false, [.raises, .raises, .raises]⟩ ∧
    stateAfter ((runCalls ⟨true, []⟩).take 3) = some .error ∧
    stateAfter ((runCalls ⟨true, []⟩).take 4) = some .stopped := by
  decide

lemma foldl_heartbeats (l : List IterOutcome) :
    ∀ st : Option ThreadState,
      (l.map (fun _ => MgrCall.heartbeat)).foldl applyCall st = st := by
  induction l with
  | nil => intro st; rfl
  | cons x xs ih => intro st; simpa [applyCall] using ih st

/-- C2 amended: exceptions raised by process_iteration are caught inside
the loop and never produce an ERROR state — ERROR is recorded exactly
when setup() (or the loop machinery itself, outside process_iteration)
raises; while the loop runs the state stays RUNNING; and every run ends
with update(STOPPED) followed by unregistration, so neither ERROR nor any
other state is terminal for the run in the claimed sense. -/
theorem c2_lifecycle_amended (script : RunScript) :
    (MgrCall.update .error ∈ runCalls script ↔ script.setupRaises = true) ∧
    (script.setupRaises = false → ∀ n, n ≤ script.iters.length →
      stateAfter ((runCalls script).take (2 + n)) = some .running) ∧
    (∃ pre, runCalls script = pre ++ [MgrCall.update .stopped, MgrCall.unregister]) ∧
    stateAfter (runCalls script) = none := by
  refine ⟨?_, ?_, ?_, ?_⟩
  · cases hs : script.setupRaises <;> simp [runCalls, hs]
  · intro hs n hn
    have hsplit : (runCalls script).take (2 + n) =
        [MgrCall.register, MgrCall.update .running] ++
          (script.iters.take n).map (fun _ => MgrCall.heartbeat) := by
      simp only [runCalls, hs, Bool.false_eq_true, if_false]
      rw [List.take_append_of_le_length (by simp; omega)]
      rw [List.map_take]
      rw [show 2 + n = n + 1 + 1 from by omega]
      simp [List.take_succ_cons]
    rw [hsplit]
    simp only [stateAfter, List.foldl_append]
    rw [foldl_heartbeats]
    rfl
  · exact ⟨[MgrCall.register, MgrCall.update .running] ++
      (if script.setupRaises then [MgrCall.update .error]
       else script.iters.map (fun _ => MgrCall.heartbeat)), rfl⟩
  · simp [stateAfter, runCalls, List.foldl_append, applyCall]

/-- Witness for the amended C2 at a concrete script: with setup fine and
three raising iterations, the state is RUNNING after all three
iterations, ERROR never appears, and the run ends unregistered. -/
theorem c2_lifecycle_amended_witness :
    ¬ (MgrCall.update .error ∈ runCalls ⟨false, [.raises, .raises, .raises]⟩) ∧
    stateAfter ((runCalls ⟨false, [.raises, .raises, .raises]⟩).take 5) =
      some .running ∧
    stateAfter (runCalls ⟨false, [.raises, .raises, .raises]⟩) = none := by
  have h := c2_lifecycle_amended ⟨false, [.raises, .raises, .raises]⟩
  refine ⟨?_, ?_, h.2.2.2⟩
  · intro hmem
    exact absurd (h.1.mp hmem) (by decide)
  · exact h.2.1 rfl 3 (by decide)

/-!  threads/video.py: the consent-capture prologue of
VideoProcessingThread._process_frame, together with
ConsentState.should_capture / reset_capture (misc/state.py lines 32-38).
The frame-to-array conversion, ConsentCapture.save_head_image and
extract_feature are external steps whose outcomes are supplied as oracle
values. -/

/-- Outcome of ConsentCapture.save_head_image for the current frame: it
can raise (cv2.imwrite failure raises IOError), find no face (returning
(None, None)), or save the head image and return path and coordinates. -/
inductive SaveOutcome where
  | raises
  | noFace
  | saved
deriving DecidableEq, Repr

/-- Oracle values for the external steps of one frame's capture branch:
whether frame.to_ndarray raises, the save_head_image outcome, and the
encoding extract_feature returns (none when extraction fails — note
extract_feature catches its own exceptions and the registration block has
its own inner try/except, so failures there do not escape). -/
structure CaptureOracle where
  convertRaises : Bool
  save : SaveOutcome
  encoding : Option (List ℚ)
deriving DecidableEq, Repr

/-- Observable result of the capture branch for one frame. -/
structure CaptureStep where
  branchTaken : Bool
  captureFlag : Bool
  registered : Bool
deriving DecidableEq, Repr

/-- The consent-capture prologue of _process_frame (threads/video.py
lines 74-112) for one frame, given the capture_next_frame flag:
should_capture() is read; when true, the frame is converted and saved and
the encoding registered; reset_capture() is the last statement of the
outer try block, so it is skipped when the conversion or the save raises,
because the outer except only logs the error. -/
def processFrameCapture (captureFlag : Bool) (o : CaptureOracle) : CaptureStep :=
  if captureFlag then
    if o.convertRaises then
      { branchTaken := true, captureFlag := true, registered := false }
    else
      match o.save with
      | .raises => { branchTaken := true, captureFlag := true, registered := false }
      | .noFace => { branchTaken := true, captureFlag := false, registered := false }
      | .saved =>
        match o.encoding with
        | some _ => { branchTaken := true, captureFlag := false, registered := true }
        | none => { branchTaken := true, captureFlag := false, registered := false }
  else { branchTaken := false, captureFlag := false, registered := false }

/-- A run of consecutive frames, threading the capture flag; returns the
per-frame capture steps and the final flag.  No step of _process_frame
ever sets the flag, so it can only be cleared along the way. -/
def processFrames (captureFlag : Bool) (os : List CaptureOracle) :
    List CaptureStep × Bool :=
  match os with
  | [] => ([], captureFlag)
  | o :: rest =>
    let step := processFrameCapture captureFlag o
    let r := processFrames step.captureFlag rest
    (step :: r.1, r.2)

/-- C3 counterexample: one consent event (flag set once), then two frames
whose save_head_image raises — the consent-capture branch executes on
BOTH frames, because the outer except skips reset_capture, refuting the
claim that the branch runs for at most one frame regardless of whether
the capture steps raise. -/
theorem c3_capture_counterexample :
    ((processFrames true
        [⟨false, .raises, none⟩, ⟨false, .raises, none⟩]).1.map
      (fun st => st.branchTaken)) = [true, true] ∧
    (processFrames true
        [⟨false, .raises, none⟩, ⟨false, .raises, none⟩]).2 = true := by
  decide

lemma processFrames_flag_clear (os : List CaptureOracle) :
    processFrames false os =
      (os.map (fun _ => ⟨false, false, false⟩), false) := by
  induction os with
  | nil => rfl
  | cons o rest ih => simp [processFrames, processFrameCapture, ih]

/-- C3 amended: after one consent event, the capture branch executes for
exactly one subsequent frame provided the frame conversion and
save_head_image do not raise on that frame (failures in encoding
extraction or registration still clear the flag); when conversion or save
raises, the flag stays set and the branch runs again on later frames. -/
theorem c3_capture_at_most_once (o : CaptureOracle) (os : List CaptureOracle)
    (h1 : o.convertRaises = false) (h2 : o.save ≠ SaveOutcome.raises) :
    ((processFrames true (o :: os)).1.map (fun st => st.branchTaken)) =
      true :: os.map (fun _ => false) ∧
    (processFrames true (o :: os)).2 = false := by
  have hstep : (processFrameCapture true o).captureFlag = false := by
    simp only [processFrameCapture, if_pos, h1, Bool.false_eq_true, if_false]
    cases hs : o.save
    · exact absurd hs h2
    · rfl
    · cases o.encoding <;> rfl
  have hrun : processFrames true (o :: os) =
      ((processFrameCapture true o) ::
        (os.map (fun _ => ⟨false, false, false⟩)), false) := by
    simp [processFrames, hstep, processFrames_flag_clear]
  rw [hrun]
  refine ⟨?_, rfl⟩
  simp only [List.map_cons, List.map_map]
  have hb : (processFrameCapture true o).branchTaken = true := by
    simp only [processFrameCapture, if_pos, h1, Bool.false_eq_true, if_false]
    cases o.save
    · rfl
    · rfl
    · cases o.encoding <;> rfl
  rw [hb]
  have hconst : ((fun (st : CaptureStep) => st.branchTaken) ∘
      fun (_ : CaptureOracle) =>
        ({ branchTaken := false, captureFlag := false,
           registered := false } : CaptureStep)) = fun _ => false := rfl
  rw [hconst]

/-- Witness for the amended C3: a frame whose save succeeds but whose
encoding extraction fails still clears the flag, and the branch does not
run on the two following frames. -/
theorem c3_capture_witness :
    ((processFrames true
        [⟨false, .saved, none⟩, ⟨false, .saved, some [1]⟩,
         ⟨false, .saved, some [1]⟩]).1.map (fun st => st.branchTaken)) =
      [true, false, false] ∧
    (processFrames true
        [⟨false, .saved, none⟩, ⟨false, .saved, some [1]⟩,
         ⟨false, .saved, some [1]⟩]).2 = false := by
  have h := c3_capture_at_most_once ⟨false, .saved, none⟩
    [⟨false, .saved, some [1]⟩, ⟨false, .saved, some [1]⟩]
    rfl (by decide)
  exact ⟨h.1, h.2⟩

/-!  threads/vad.py: the chunk-level state machine of _process_vad_chunk
and _queue_speech_segment.  The Silero model is an external oracle: each
input chunk is represented by the probability the oracle assigns to it
(all chunks hold chunk_size samples).  Times are rationals; the speech
queue is the BoundedQueue built by the pipeline (strategy DROP_OLDEST,
misc/pipeline.py lines 63-65). -/

/-- The VADThread configuration fields used by the state machine
(threads/vad.py lines 14-40; constructor defaults in defaultVADConfig). -/
structure VADConfig where
  start_speech_prob : ℚ
  keep_speech_prob : ℚ
  stop_silence_samples : Nat
  min_segment_samples : Nat
  sampling_rate : Nat
  chunk_size : Nat
deriving DecidableEq, Repr

/-- The VADThread constructor defaults: start_speech_prob = 0.1,
keep_speech_prob = 0.3, stop_silence_ms = 500, min_segment_ms = 500,
sampling_rate = 16000, chunk_size = 512; the sample counts are
sampling_rate * ms // 1000. -/
def defaultVADConfig : VADConfig :=
  { start_speech_prob := 1 / 10
    keep_speech_prob := 3 / 10
    stop_silence_samples := 16000 * 500 / 1000
    min_segment_samples := 16000 * 500 / 1000
    sampling_rate := 16000
    chunk_size := 512 }

/-- A SpeechSegment as timed by _queue_speech_segment: start_time is the
stream time when speech began, end_time the stream time at emission, and
sampleLen the concatenated buffer length. -/
structure SpeechSeg where
  start_time : ℚ
  end_time : ℚ
  sampleLen : Nat
deriving DecidableEq, Repr

/-- VADThread mutable state across _process_vad_chunk calls: the SPEAKING
flag, the number of buffered chunks (each chunk_size samples long), the
silence counter, the stream clock, the speech start time, the speech
output queue, and a log of every segment-production decision taken by
_queue_speech_segment (the segment and whether it was enqueued). -/
structure VState where
  in_speech : Bool
  speechChunks : Nat
  silence_samples : Nat
  stream_time_offset : ℚ
  speech_start_time : ℚ
  outQueue : QState SpeechSeg
  emitted : List (SpeechSeg × Bool)
deriving DecidableEq, Repr

/-- VADThread._queue_speech_segment (threads/vad.py lines 165-198): an
empty buffer does nothing; a segment shorter than min_segment_samples is
skipped without touching the queue; otherwise the segment is offered to
the speech queue with BoundedQueue.put (the pipeline builds that queue
with strategy DROP_OLDEST and capacity queueCap). -/
def queueSpeechSegment (cfg : VADConfig) (queueCap : Nat) (st : VState) : VState :=
  if st.speechChunks = 0 then st
  else
    let len := st.speechChunks * cfg.chunk_size
    let seg : SpeechSeg := ⟨st.speech_start_time, st.stream_time_offset, len⟩
    if len < cfg.min_segment_samples then
      { st with emitted := st.emitted ++ [(seg, false)] }
    else
      let r := boundedPut queueCap .drop_oldest st.outQueue seg
      { st with outQueue := r.1, emitted := st.emitted ++ [(seg, r.2)] }

/-- VADThread._process_vad_chunk (threads/vad.py lines 130-163) for one
chunk with oracle probability prob: while SPEAKING the chunk is buffered;
a probability above keep_speech_prob clears the silence counter, otherwise
silence grows by chunk_size and reaching stop_silence_samples ends the
segment (queue it, clear buffer and silence); while SILENT a probability
above start_speech_prob starts a segment at the current stream time.  The
stream clock advances by chunk_size / sampling_rate at the end. -/
def processVadChunk (cfg : VADConfig) (queueCap : Nat) (st : VState) (prob : ℚ) :
    VState :=
  let st1 :=
    if st.in_speech then
      let stb := { st with speechChunks := st.speechChunks + 1 }
      if prob > cfg.keep_speech_prob then
        { stb with silence_samples := 0 }
      else
        let sil := stb.silence_samples + cfg.chunk_size
        if cfg.stop_silence_samples ≤ sil then
          let st2 := queueSpeechSegment cfg queueCap
            { stb with in_speech := false, silence_samples := sil }
          { st2 with speechChunks := 0, silence_samples := 0 }
        else
          { stb with silence_samples := sil }
    else
      if prob > cfg.start_speech_prob then
        { st with in_speech := true,
                  speech_start_time := st.stream_time_offset,
                  speechChunks := st.speechChunks + 1,
                  silence_samples := 0 }
      else st
  { st1 with stream_time_offset :=
      st1.stream_time_offset + (cfg.chunk_size : ℚ) / (cfg.sampling_rate : ℚ) }

/-- Feeding a probability sequence chunk by chunk. -/
def processVadChunks (cfg : VADConfig) (queueCap : Nat) (st : VState)
    (probs : List ℚ) : VState :=
  probs.foldl (processVadChunk cfg queueCap) st

/-- The fresh VAD state (VADThread.__init__): SILENT, empty buffer, zero
silence, given stream clock and speech queue. -/
def initialVState (t0 : ℚ) (q : QState SpeechSeg) : VState :=
  ⟨false, 0, 0, t0, 0, q, []⟩

/-- C8 counterexample: with the VADThread default configuration the keep
threshold (0.3) is NOT strictly lower than the start threshold (0.1). -/
theorem c8_keep_threshold_counterexample :
    ¬ (defaultVADConfig.keep_speech_prob < defaultVADConfig.start_speech_prob) := by
  norm_num [defaultVADConfig]

/-- C8 amended: in the default configuration the keep threshold is
strictly HIGHER than the start threshold (and nothing in the code
enforces any ordering between the two configurable values). -/
theorem c8_keep_threshold_amended :
    defaultVADConfig.start_speech_prob < defaultVADConfig.keep_speech_prob := by
  norm_num [defaultVADConfig]

lemma boundedPut_oldest_succeeds (maxsize : Nat) (s : QState α) (x : α)
    (hm : 0 < maxsize) (hs : s.buf.length ≤ maxsize) :
    (boundedPut maxsize .drop_oldest s x).2 = true := by
  by_cases h : s.buf.length < maxsize
  · rw [boundedPut_oldest_space _ _ _ (by omega)]
  · have heq : s.buf.length = maxsize := by omega
    cases hb : s.buf with
    | nil => rw [hb] at heq; simp at heq; omega
    | cons a t =>
      have hseq : s = ⟨a :: t, s.dropped⟩ := by cases s; simp_all
      rw [hseq, boundedPut_oldest_full maxsize a t s.dropped x hm
        (by rw [← hb]; omega) (by rw [hb] at heq; simp at heq; omega)]

lemma vad_keep_phase (cfg : VADConfig) (queueCap : Nat) (ks : List ℚ)
    (hks : ∀ p ∈ ks, p > cfg.keep_speech_prob) :
    ∀ st : VState, st.in_speech = true → st.silence_samples = 0 →
      processVadChunks cfg queueCap st ks =
        { st with
          speechChunks := st.speechChunks + ks.length,
          stream_time_offset := st.stream_time_offset +
            (ks.length : ℚ) * ((cfg.chunk_size : ℚ) / (cfg.sampling_rate : ℚ)) } := by
  induction ks with
  | nil =>
    intro st hsp hsil
    simp only [processVadChunks, List.foldl_nil, List.length_nil, Nat.add_zero,
      Nat.cast_zero, zero_mul, add_zero]
  | cons p ps ih =>
    intro st hsp hsil
    have hp : p > cfg.keep_speech_prob := hks p (List.mem_cons_self _ _)
    have hstep : processVadChunk cfg queueCap st p =
        { st with speechChunks := st.speechChunks + 1,
                  silence_samples := 0,
                  stream_time_offset := st.stream_time_offset +
                    (cfg.chunk_size : ℚ) / (cfg.sampling_rate : ℚ) } := by
      simp [processVadChunk, hsp, hp]
    have hrest : ∀ q ∈ ps, q > cfg.keep_speech_prob :=
      fun q hq => hks q (List.mem_cons_of_mem _ hq)
    have hrec := ih hrest
      { st with speechChunks := st.speechChunks + 1,
                silence_samples := 0,
                stream_time_offset := st.stream_time_offset +
                  (cfg.chunk_size : ℚ) / (cfg.sampling_rate : ℚ) }
      (by simp [hsp]) (by simp)
    have hfold : processVadChunks cfg queueCap st (p :: ps) =
        processVadChunks cfg queueCap (processVadChunk cfg queueCap st p) ps := rfl
    rw [hfold, hstep, hrec]
    cases st
    dsimp only at hsil ⊢
    congr 1
    all_goals first
      | rfl
      | omega
      | (simp only [List.length_cons]; push_cast; ring)

lemma queueSpeechSegment_time (cfg : VADConfig) (queueCap : Nat) (st : VState) :
    (queueSpeechSegment cfg queueCap st).stream_time_offset =
      st.stream_time_offset := by
  unfold queueSpeechSegment
  by_cases h : st.speechChunks = 0
  · rw [if_pos h]
  · rw [if_neg h]
    dsimp only
    split <;> rfl

lemma processVadChunk_start (cfg : VADConfig) (queueCap : Nat) (st : VState)
    (x : ℚ) (hsp : st.in_speech = false) (hx : x > cfg.start_speech_prob) :
    processVadChunk cfg queueCap st x =
      { st with in_speech := true,
                speech_start_time := st.stream_time_offset,
                speechChunks := st.speechChunks + 1,
                silence_samples := 0,
                stream_time_offset := st.stream_time_offset +
                  (cfg.chunk_size : ℚ) / (cfg.sampling_rate : ℚ) } := by
  simp [processVadChunk, hsp, hx]

lemma processVadChunk_silence (cfg : VADConfig) (queueCap : Nat) (st : VState)
    (x : ℚ) (hsp : st.in_speech = true) (hx : ¬ (x > cfg.keep_speech_prob))
    (hcond : ¬ (cfg.stop_silence_samples ≤ st.silence_samples + cfg.chunk_size)) :
    processVadChunk cfg queueCap st x =
      { st with speechChunks := st.speechChunks + 1,
                silence_samples := st.silence_samples + cfg.chunk_size,
                stream_time_offset := st.stream_time_offset +
                  (cfg.chunk_size : ℚ) / (cfg.sampling_rate : ℚ) } := by
  simp [processVadChunk, hsp, hx, hcond]

lemma processVadChunk_emit (cfg : VADConfig) (queueCap : Nat) (st : VState)
    (x : ℚ) (hsp : st.in_speech = true) (hx : ¬ (x > cfg.keep_speech_prob))
    (hcond : cfg.stop_silence_samples ≤ st.silence_samples + cfg.chunk_size) :
    processVadChunk cfg queueCap st x =
      { queueSpeechSegment cfg queueCap
          { st with in_speech := false,
                    speechChunks := st.speechChunks + 1,
                    silence_samples := st.silence_samples + cfg.chunk_size } with
        speechChunks := 0, silence_samples := 0,
        stream_time_offset := st.stream_time_offset +
          (cfg.chunk_size : ℚ) / (cfg.sampling_rate : ℚ) } := by
  simp only [processVadChunk, hsp, if_true, hx, if_false, hcond, if_pos]
  rw [VState.mk.injEq]
  refine ⟨rfl, rfl, rfl, ?_, rfl, rfl, rfl⟩
  rw [queueSpeechSegment_time]

/-- Feeding a run of at-or-below-keep-threshold chunks to a SPEAKING
state whose accumulated silence first reaches the stop duration exactly at
the last chunk: the segment spanning the whole buffer is handed to
_queue_speech_segment with the pre-increment stream time, and the machine
returns to SILENT with cleared buffer and silence counter. -/
lemma vad_silence_phase (cfg : VADConfig) (queueCap : Nat) :
    ∀ (ss : List ℚ) (st : VState), st.in_speech = true →
      (∀ p ∈ ss, p ≤ cfg.keep_speech_prob) →
      0 < ss.length →
      cfg.stop_silence_samples ≤
        st.silence_samples + cfg.chunk_size * ss.length →
      st.silence_samples + cfg.chunk_size * (ss.length - 1) <
        cfg.stop_silence_samples →
      processVadChunks cfg queueCap st ss =
        { queueSpeechSegment cfg queueCap
            { st with in_speech := false,
                      speechChunks := st.speechChunks + ss.length,
                      silence_samples :=
                        st.silence_samples + cfg.chunk_size * ss.length,
                      stream_time_offset := st.stream_time_offset +
                        ((ss.length - 1 : Nat) : ℚ) *
                          ((cfg.chunk_size : ℚ) / (cfg.sampling_rate : ℚ)) } with
          speechChunks := 0, silence_samples := 0,
          stream_time_offset := st.stream_time_offset +
            (ss.length : ℚ) * ((cfg.chunk_size : ℚ) / (cfg.sampling_rate : ℚ)) } := by
  intro ss
  induction ss with
  | nil =>
    intro st _ _ hlen _ _
    simp at hlen
  | cons x rest ih =>
    intro st hsp hss hlen hstop1 hstop2
    have hx : x ≤ cfg.keep_speech_prob := hss x (List.mem_cons_self _ _)
    have hnx : ¬ (x > cfg.keep_speech_prob) := not_lt.mpr hx
    by_cases hr : rest = []
    · subst hr
      have hcond : cfg.stop_silence_samples ≤
          st.silence_samples + cfg.chunk_size := by
        simp only [List.length_singleton, Nat.mul_one] at hstop1
        omega
      have hstep := processVadChunk_emit cfg queueCap st x hsp hnx hcond
      rw [show processVadChunks cfg queueCap st [x] =
          processVadChunk cfg queueCap st x from rfl, hstep]
      simp only [List.length_singleton, Nat.cast_one, one_mul, Nat.mul_one,
        Nat.sub_self, Nat.cast_zero, zero_mul, add_zero]
    · have hr1 : 1 ≤ rest.length := by
        cases rest with
        | nil => exact absurd rfl hr
        | cons a b => simp
      have hmul1 : cfg.chunk_size * (x :: rest).length =
          cfg.chunk_size * rest.length + cfg.chunk_size := by
        simp only [List.length_cons]
        ring
      have hmul2 : cfg.chunk_size * (rest.length - 1) + cfg.chunk_size =
          cfg.chunk_size * rest.length := by
        calc cfg.chunk_size * (rest.length - 1) + cfg.chunk_size
            = cfg.chunk_size * ((rest.length - 1) + 1) := by ring
          _ = cfg.chunk_size * rest.length := by rw [Nat.sub_add_cancel hr1]
      have hlcons : (x :: rest).length - 1 = rest.length := by simp
      have hcond2 : ¬ (cfg.stop_silence_samples ≤
          st.silence_samples + cfg.chunk_size) := by
        rw [hlcons] at hstop2
        omega
      have hstep := processVadChunk_silence cfg queueCap st x hsp hnx hcond2
      have hrec := ih
        { st with speechChunks := st.speechChunks + 1,
                  silence_samples := st.silence_samples + cfg.chunk_size,
                  stream_time_offset := st.stream_time_offset +
                    (cfg.chunk_size : ℚ) / (cfg.sampling_rate : ℚ) }
        (by simp [hsp])
        (fun q hq => hss q (List.mem_cons_of_mem _ hq))
        (by omega)
        (by
          dsimp only
          rw [hmul1] at hstop1
          omega)
        (by
          dsimp only
          rw [hlcons] at hstop2
          omega)
      rw [show processVadChunks cfg queueCap st (x :: rest) =
          processVadChunks cfg queueCap
            (processVadChunk cfg queueCap st x) rest from rfl, hstep, hrec]
      dsimp only
      have hBC :
          ({ in_speech := false,
             speechChunks := st.speechChunks + 1 + rest.length,
             silence_samples :=
               st.silence_samples + cfg.chunk_size + cfg.chunk_size * rest.length,
             stream_time_offset := st.stream_time_offset +
               (cfg.chunk_size : ℚ) / (cfg.sampling_rate : ℚ) +
               ((rest.length - 1 : Nat) : ℚ) *
                 ((cfg.chunk_size : ℚ) / (cfg.sampling_rate : ℚ)),
             speech_start_time := st.speech_start_time,
             outQueue := st.outQueue,
             emitted := st.emitted } : VState) =
          { in_speech := false,
            speechChunks := st.speechChunks + (x :: rest).length,
            silence_samples :=
              st.silence_samples + cfg.chunk_size * (x :: rest).length,
            stream_time_offset := st.stream_time_offset +
              (((x :: rest).length - 1 : Nat) : ℚ) *
                ((cfg.chunk_size : ℚ) / (cfg.sampling_rate : ℚ)),
            speech_start_time := st.speech_start_time,
            outQueue := st.outQueue,
            emitted := st.emitted } := by
        rw [VState.mk.injEq]
        refine ⟨rfl, by simp only [List.length_cons]; omega, ?_, ?_, rfl, rfl, rfl⟩
        · rw [hmul1]
          ring
        · rw [show ((x :: rest).length - 1 : Nat) = rest.length from hlcons,
            Nat.cast_sub hr1]
          push_cast
          ring
      rw [hBC]
      congr 1
      simp only [List.length_cons]
      push_cast
      ring

/-- C5: feeding the fresh VAD machine one chunk above the start threshold,
then K chunks above the keep threshold, then chunks at or below the keep
threshold until the accumulated silence first reaches the stop duration,
produces exactly one SpeechSegment; its start_time is the stream time at
the first speech chunk, its end_time the stream time at emission, and it
is enqueued on the DROP_OLDEST speech queue if and only if its sample
length is at least the minimum segment length (below it, it is dropped
without touching the queue). -/
theorem c5_vad_single_segment (cfg : VADConfig) (queueCap : Nat) (t0 : ℚ)
    (q0 : QState SpeechSeg) (p0 : ℚ) (ks ss : List ℚ)
    (hcap : 0 < queueCap) (hq0 : q0.buf.length ≤ queueCap)
    (hp0 : p0 > cfg.start_speech_prob)
    (hks : ∀ p ∈ ks, p > cfg.keep_speech_prob)
    (hss : ∀ p ∈ ss, p ≤ cfg.keep_speech_prob)
    (hssn : 0 < ss.length)
    (hstop1 : cfg.stop_silence_samples ≤ cfg.chunk_size * ss.length)
    (hstop2 : cfg.chunk_size * (ss.length - 1) < cfg.stop_silence_samples) :
    (processVadChunks cfg queueCap (initialVState t0 q0)
        (p0 :: (ks ++ ss))).emitted =
      [(⟨t0,
         t0 + ((ks.length + ss.length : Nat) : ℚ) *
           ((cfg.chunk_size : ℚ) / (cfg.sampling_rate : ℚ)),
         (1 + ks.length + ss.length) * cfg.chunk_size⟩,
        decide (cfg.min_segment_samples ≤
          (1 + ks.length + ss.length) * cfg.chunk_size))] := by
  have hA : processVadChunk cfg queueCap (initialVState t0 q0) p0 =
      ({ in_speech := true, speechChunks := 1, silence_samples := 0,
         stream_time_offset :=
           t0 + (cfg.chunk_size : ℚ) / (cfg.sampling_rate : ℚ),
         speech_start_time := t0, outQueue := q0, emitted := [] } : VState) := by
    rw [processVadChunk_start cfg queueCap (initialVState t0 q0) p0 rfl hp0]
    rfl
  have hfold : processVadChunks cfg queueCap (initialVState t0 q0)
      (p0 :: (ks ++ ss)) =
      processVadChunks cfg queueCap
        (processVadChunks cfg queueCap
          (processVadChunk cfg queueCap (initialVState t0 q0) p0) ks) ss := by
    simp only [processVadChunks, List.foldl_cons, List.foldl_append]
  have hkeep := vad_keep_phase cfg queueCap ks hks
    ({ in_speech := true, speechChunks := 1, silence_samples := 0,
       stream_time_offset :=
         t0 + (cfg.chunk_size : ℚ) / (cfg.sampling_rate : ℚ),
       speech_start_time := t0, outQueue := q0, emitted := [] } : VState) rfl rfl
  have hsil := vad_silence_phase cfg queueCap ss
    ({ in_speech := true, speechChunks := 1 + ks.length, silence_samples := 0,
       stream_time_offset :=
         t0 + (cfg.chunk_size : ℚ) / (cfg.sampling_rate : ℚ) +
           (ks.length : ℚ) * ((cfg.chunk_size : ℚ) / (cfg.sampling_rate : ℚ)),
       speech_start_time := t0, outQueue := q0, emitted := [] } : VState)
    rfl hss hssn (by dsimp only; omega) (by dsimp only; omega)
  rw [hfold, hA, hkeep]
  dsimp only
  rw [hsil]
  dsimp only
  unfold queueSpeechSegment
  rw [if_neg (show ¬ (1 + ks.length + ss.length = 0) by omega)]
  dsimp only
  by_cases hmin : (1 + ks.length + ss.length) * cfg.chunk_size <
      cfg.min_segment_samples
  · rw [if_pos hmin]
    dsimp only
    rw [List.nil_append]
    rw [show decide (cfg.min_segment_samples ≤
        (1 + ks.length + ss.length) * cfg.chunk_size) = false from
      decide_eq_false (not_le.mpr hmin)]
    rw [List.cons.injEq]
    refine ⟨?_, rfl⟩
    rw [Prod.mk.injEq]
    refine ⟨?_, rfl⟩
    rw [SpeechSeg.mk.injEq]
    refine ⟨rfl, ?_, rfl⟩
    rw [Nat.cast_sub hssn]
    push_cast
    ring
  · rw [if_neg hmin]
    dsimp only
    rw [List.nil_append]
    rw [boundedPut_oldest_succeeds queueCap q0 _ hcap hq0]
    rw [show decide (cfg.min_segment_samples ≤
        (1 + ks.length + ss.length) * cfg.chunk_size) = true from
      decide_eq_true (not_lt.mp hmin)]
    rw [List.cons.injEq]
    refine ⟨?_, rfl⟩
    rw [Prod.mk.injEq]
    refine ⟨?_, rfl⟩
    rw [SpeechSeg.mk.injEq]
    refine ⟨rfl, ?_, rfl⟩
    rw [Nat.cast_sub hssn]
    push_cast
    ring

/-- Witness for C5 at a concrete configuration (chunk_size 2, rate 4,
stop after 4 silence samples, minimum 8 samples): one start chunk, one
keep chunk and two silence chunks yield exactly one segment spanning
[0, 3/2) with 8 samples, which is enqueued. -/
theorem c5_vad_witness :
    (processVadChunks ⟨1/10, 3/10, 4, 8, 4, 2⟩ 1 (initialVState 0 ⟨[], 0⟩)
        ((1/2) :: ([2/5] ++ [0, 0]))).emitted =
      [(⟨0, 3/2, 8⟩, true)] := by
  have h := c5_vad_single_segment ⟨1/10, 3/10, 4, 8, 4, 2⟩ 1 0 ⟨[], 0⟩ (1/2)
    [2/5] [0, 0]
    (by norm_num) (by norm_num)
    (by norm_num)
    (by intro p hp; rw [List.mem_singleton] at hp; subst hp; norm_num)
    (by
      intro p hp
      rcases List.mem_cons.mp hp with rfl | hp2
      · norm_num
      · rw [List.mem_singleton] at hp2; subst hp2; norm_num)
    (by norm_num) (by norm_num) (by norm_num)
  rw [h]
  norm_num
